import Mathlib

/-!
Verification of the GFA reader/writer core of canu (`src/gfa/gfa.H`).

The repository ships only the class interface (`gfa.H`); the method bodies
live in a translation unit that is not part of the sources here.  Every
behavioural definition below is therefore modelled from the specification
(`spec.md`), faithful to its words, and keeps the names of the declared
C++ entities (`gfaSequence`, `gfaLink`, `gfaFile`, `load`, `save`,
`loadFile`, `saveFile`, `alignmentLength`).

Modelling conventions:
* a text line is a `String`; a file is a `List String` of its lines
  (reading/writing the byte stream is external I/O, out of scope);
* tab separation is `List.splitOn '\t'` on the character list;
* `uint32`/`int32` become `Nat`/`Int` (no overflow is modelled: the spec
  does not mention wrap-around and the quantities are file-bounded);
* fallible operations return `Except`.
-/

/-- Error kinds of the spec, §7: `MalformedRecord` (wrong field count or
invalid orientation token), `MalformedCigar` (bad token syntax),
`UnsupportedCigarOp` (operation letter outside M, I, D). -/
inductive RecErr where
  | MalformedRecord
  | MalformedCigar
  | UnsupportedCigarOp
deriving DecidableEq, Repr

/-- Joins character-list fields with a tab separator (the inverse image of
splitting a line on tabs). -/
def tabJoinChars : List (List Char) → List Char
  | [] => []
  | [f] => f
  | f :: g :: fs => f ++ '\t' :: tabJoinChars (g :: fs)

/-- Joins string fields into one tab-separated line. -/
def tabJoin (fs : List String) : String :=
  ⟨tabJoinChars (fs.map String.data)⟩

/-- Splits a line into its tab-separated fields. -/
def splitTab (s : String) : List String :=
  (s.data.splitOn '\t').map fun cs => ⟨cs⟩

/-- Numeric value of a decimal digit character. -/
def digitVal (c : Char) : Nat := c.toNat - 48

/-- Value of a list of decimal digit characters, most significant first. -/
def natOfDigits (ds : List Char) : Nat :=
  ds.foldl (fun n c => n * 10 + digitVal c) 0

/-- Modelled from the spec: §4.3 tokenisation of a CIGAR string, "a sequence
of (length, operation-character) tokens such as `10M2I3D`"; "tokens must be
well-formed (a positive integer immediately followed by exactly one
operation letter); malformed tokenization fails".  The accumulator holds the
digits read so far of the current token's number (`none` between tokens);
`none` as a result signals a malformed tokenisation. -/
def cigarTokensAux : Option Nat → List Char → Option (List (Nat × Char))
  | none, [] => some []
  | some _, [] => none
  | none, c :: cs =>
      if c.isDigit then cigarTokensAux (some (digitVal c)) cs else none
  | some n, c :: cs =>
      if c.isDigit then cigarTokensAux (some (n * 10 + digitVal c)) cs
      else if n = 0 then none
      else (cigarTokensAux none cs).map fun ts => (n, c) :: ts

/-- Tokenises a CIGAR string, `none` on malformed tokenisation. -/
def cigarTokens (s : String) : Option (List (Nat × Char)) :=
  cigarTokensAux none s.data

/-- Modelled from the spec: §4.3, the per-token accumulation of
(queryLength, referenceLength, alignLength): `M` adds its length to all
three, `I` to query and align, `D` to reference and align, and "any other
operation character fails with `UnsupportedCigarOp`". -/
def cigarExtents : List (Nat × Char) → Except RecErr (Int × Int × Int)
  | [] => .ok (0, 0, 0)
  | (n, op) :: ts =>
      if op = 'M' then
        match cigarExtents ts with
        | .ok (q, r, a) => .ok (q + n, r + n, a + n)
        | .error e => .error e
      else if op = 'I' then
        match cigarExtents ts with
        | .ok (q, r, a) => .ok (q + n, r, a + n)
        | .error e => .error e
      else if op = 'D' then
        match cigarExtents ts with
        | .ok (q, r, a) => .ok (q, r + n, a + n)
        | .error e => .error e
      else .error .UnsupportedCigarOp

/-- Modelled from the spec: §4.3 `gfaLink::alignmentLength` on a CIGAR
string — "if the placeholder token (no alignment given) is supplied, all
three outputs are 0 and no error is raised"; otherwise tokenise and
accumulate extents. -/
def alignmentLengthOf (cigar : String) : Except RecErr (Int × Int × Int) :=
  if cigar = "*" then .ok (0, 0, 0)
  else
    match cigarTokens cigar with
    | none => .error .MalformedCigar
    | some ts => cigarExtents ts

/-- Specification-side sum: total length of the tokens whose operation is in
`ops` (used to state the per-operation accounting of §4.3 as plain sums). -/
def opSum (ops : List Char) : List (Nat × Char) → Int
  | [] => 0
  | (n, c) :: ts => (if c ∈ ops then (n : Int) else 0) + opSum ops ts

/-- Modelled from the spec: §4.1, recognition of "an explicit length tag"
among the optional tag fields, taken as the standard GFA `LN:i:<digits>`
tag; returns its value when the field is such a tag. -/
def lengthTagValue (t : String) : Option Nat :=
  match t.data with
  | 'L' :: 'N' :: ':' :: 'i' :: ':' :: ds =>
      if ds.isEmpty then none
      else if ds.all Char.isDigit then some (natOfDigits ds) else none
  | _ => none

/-- The C++ class `gfaSequence` (gfa.H, lines 28–45): name, Canu-specific
dense id, sequence text, opaque trailing `features` text, derived length. -/
structure gfaSequence where
  _name : String
  _id : Nat
  _sequence : String
  _features : String
  _length : Nat
deriving DecidableEq, Repr

/-- Modelled from the spec: §4.1 Parse Segment — fields after the marker are
name, sequence-or-placeholder, then optional tags; fails with
`MalformedRecord` when fewer than 2 fields follow the marker; `length` is
the explicit length tag's value if present, else the character count of a
non-placeholder sequence, else 0; tags not recognised as the length tag are
concatenated verbatim, separator-preserving, into `features`.  The id is
assigned later by the file's identity resolver. -/
def gfaSequence.load (inLine : String) : Except RecErr gfaSequence :=
  match splitTab inLine with
  | _marker :: name :: seq :: tags =>
      let len :=
        match tags.findSome? lengthTagValue with
        | some v => v
        | none => if seq = "*" then 0 else seq.length
      .ok { _name := name, _id := 0, _sequence := seq,
            _features := tabJoin (tags.filter fun t => (lengthTagValue t).isNone),
            _length := len }
  | _ => .error .MalformedRecord

/-- Modelled from the spec: §4.2 Serialize Segment — marker, name,
sequence-or-placeholder, then `features` appended verbatim (features
already includes any separators); `length` is never re-emitted. -/
def gfaSequence.save (s : gfaSequence) : String :=
  tabJoin ["S", s._name, s._sequence] ++
    (if s._features = "" then "" else "\t" ++ s._features)

/-- The C++ class `gfaLink` (gfa.H, lines 50–75): two endpoints each with
name, Canu-specific id and orientation, the CIGAR text and opaque
`features` text. -/
structure gfaLink where
  _Aname : String
  _Aid : Nat
  _Afwd : Bool
  _Bname : String
  _Bid : Nat
  _Bfwd : Bool
  _cigar : String
  _features : String
deriving DecidableEq, Repr

/-- Parses an orientation field: `+` is forward, `-` is reverse, anything
else is a malformed record (spec §4.1). -/
def parseOrient (o : String) : Except RecErr Bool :=
  if o = "+" then .ok true
  else if o = "-" then .ok false
  else .error .MalformedRecord

/-- Renders an orientation. -/
def orientStr (fwd : Bool) : String := if fwd then "+" else "-"

/-- Modelled from the spec: §4.1 Parse Link — fields after the marker are
A-name, A-orientation, B-name, B-orientation, CIGAR-or-placeholder, then
optional tags captured verbatim into `features`; fails with
`MalformedRecord` when fewer than 5 fields follow the marker or an
orientation field is not `+`/`-`.  Ids are assigned later by the file's
identity resolver. -/
def gfaLink.load (inLine : String) : Except RecErr gfaLink :=
  match splitTab inLine with
  | _marker :: an :: ao :: bn :: bo :: cg :: tags =>
      match parseOrient ao, parseOrient bo with
      | .ok af, .ok bf =>
          .ok { _Aname := an, _Aid := 0, _Afwd := af,
                _Bname := bn, _Bid := 0, _Bfwd := bf,
                _cigar := cg, _features := tabJoin tags }
      | .error e, _ => .error e
      | _, .error e => .error e
  | _ => .error .MalformedRecord

/-- Modelled from the spec: §4.1 Serialize Link — marker, A-name,
A-orientation, B-name, B-orientation, CIGAR, then `features` verbatim. -/
def gfaLink.save (l : gfaLink) : String :=
  tabJoin ["L", l._Aname, orientStr l._Afwd, l._Bname, orientStr l._Bfwd, l._cigar] ++
    (if l._features = "" then "" else "\t" ++ l._features)

/-- The per-link alignment-extents query `gfaLink::alignmentLength`
(gfa.H, line 61), applied to the link's own CIGAR text. -/
def gfaLink.alignmentLength (l : gfaLink) : Except RecErr (Int × Int × Int) :=
  alignmentLengthOf l._cigar

/-- The C++ class `gfaFile` (gfa.H, lines 80–94): optional header line,
ordered segments, ordered links. -/
structure gfaFile where
  _header : Option String
  _sequences : List gfaSequence
  _links : List gfaLink
deriving DecidableEq, Repr

/-- Index of the first occurrence of a name in the resolver's name list
(equal to the list's length when absent). -/
def idOf : List String → String → Nat
  | [], _ => 0
  | m :: ms, n => if m = n then 0 else idOf ms n + 1

/-- Modelled from the spec: §4.2 Identity Resolver — "the first time any
name is seen it is assigned the next sequential id starting at 0;
subsequent lookups of the same name return the previously assigned id".
The state is the list of names in first-seen order; a name's id is its
index in that list. -/
def resolve (names : List String) (n : String) : List String × Nat :=
  if n ∈ names then (names, idOf names n) else (names ++ [n], names.length)

/-- Transient state of one load: the file built so far and the identity
resolver's name list (scoped to this one load, spec §4.2). -/
structure LoadState where
  file : gfaFile
  names : List String
deriving DecidableEq, Repr

/-- Load failure report: offending line number (1-based), its raw text,
and the parse error (spec §4.4/§7). -/
structure LoadErr where
  line : Nat
  text : String
  err : RecErr
deriving DecidableEq, Repr

/-- Modelled from the spec: §4.4 per-line dispatch of Load — a header
marker stores the rest of the line verbatim (a later header line
overwrites: the policy point of §9 resolved to last-wins); a segment
marker parses a Segment, assigns its id through the resolver and appends
it; a link marker parses a Link, resolves both endpoint ids and appends
it; unrecognised markers are ignored (the policy point of §7 resolved to
skip). -/
def loadLine (st : LoadState) (ln : String) : Except RecErr LoadState :=
  match splitTab ln with
  | [] => .ok st
  | marker :: rest =>
      if marker = "H" then
        .ok { st with file := { st.file with _header := some (tabJoin rest) } }
      else if marker = "S" then
        match gfaSequence.load ln with
        | .error e => .error e
        | .ok s0 =>
            .ok { file := { st.file with
                    _sequences := st.file._sequences ++
                      [{ s0 with _id := (resolve st.names s0._name).2 }] },
                  names := (resolve st.names s0._name).1 }
      else if marker = "L" then
        match gfaLink.load ln with
        | .error e => .error e
        | .ok l0 =>
            .ok { file := { st.file with
                    _links := st.file._links ++
                      [{ l0 with
                           _Aid := (resolve st.names l0._Aname).2,
                           _Bid := (resolve (resolve st.names l0._Aname).1 l0._Bname).2 }] },
                  names := (resolve (resolve st.names l0._Aname).1 l0._Bname).1 }
      else .ok st

/-- Decides whether one line parses on its own (loadLine's success is
independent of the state, proved below). -/
def lineOk (ln : String) : Bool :=
  match splitTab ln with
  | [] => true
  | marker :: _ =>
      if marker = "S" then
        match gfaSequence.load ln with
        | .error _ => false
        | .ok _ => true
      else if marker = "L" then
        match gfaLink.load ln with
        | .error _ => false
        | .ok _ => true
      else true

/-- Runs Load over the remaining lines, `k` being the 1-based number of the
first of them; the first failing line aborts the whole load with its
number and text (spec §4.4: "no partial/best-effort graph is returned"). -/
def loadAux : LoadState → Nat → List String → Except LoadErr LoadState
  | st, _, [] => .ok st
  | st, k, l :: ls =>
      match loadLine st l with
      | .error e => .error ⟨k, l, e⟩
      | .ok st' => loadAux st' (k + 1) ls

/-- The empty load state: empty file, empty resolver. -/
def initState : LoadState := ⟨⟨none, [], []⟩, []⟩

/-- Modelled from the spec: §4.4 `gfaFile::loadFile` — reads the source
line by line from an empty file; on any per-line parse failure the whole
load fails with the offending line's number and text. -/
def gfaFile.loadFile (lines : List String) : Except LoadErr gfaFile :=
  (loadAux initState 1 lines).map fun st => st.file

/-- The header line(s) Save emits: none when the header is absent, else the
header marker followed by the stored text. -/
def headerLines (F : gfaFile) : List String :=
  match F._header with
  | none => []
  | some h => ["H" ++ (if h = "" then "" else "\t" ++ h)]

/-- Modelled from the spec: §4.4 `gfaFile::saveFile` — writes, in order,
the header line if present, then every Segment in order, then every Link
in order, each record appending its serialised line to the output sink. -/
def gfaFile.saveFile (F : gfaFile) : List String :=
  let out0 := headerLines F
  let out1 := F._sequences.foldl (fun o s => o ++ [s.save]) out0
  F._links.foldl (fun o l => o ++ [l.save]) out1

/-- Validity of one segment for the round-trip property (spec §8
"syntactically valid fields"): name and sequence contain no separator, and
`features` is a separator-join of separator-free tag fields none of which
is recognised as the length tag. -/
def validSeg (s : gfaSequence) : Prop :=
  '\t' ∉ s._name.data ∧ '\t' ∉ s._sequence.data ∧
  ∃ tags : List String, s._features = tabJoin tags ∧
    ∀ t ∈ tags, '\t' ∉ t.data ∧ (lengthTagValue t).isNone

/-- Validity of one link for the round-trip property (spec §8): endpoint
names and CIGAR contain no separator, and `features` is a separator-join
of separator-free tag fields. -/
def validLink (l : gfaLink) : Prop :=
  '\t' ∉ l._Aname.data ∧ '\t' ∉ l._Bname.data ∧ '\t' ∉ l._cigar.data ∧
  ∃ tags : List String, l._features = tabJoin tags ∧
    ∀ t ∈ tags, '\t' ∉ t.data

/-- Content of a segment apart from the resolver-assigned id and the
derived length: the fields §8 lists as round-tripping (name, sequence,
features). -/
def segContent (s : gfaSequence) : String × String × String :=
  (s._name, s._sequence, s._features)

/-- Content of a link apart from the resolver-assigned ids: the fields §8
lists as round-tripping (names, orientations, cigar, features). -/
def linkContent (l : gfaLink) : String × Bool × String × Bool × String × String :=
  (l._Aname, l._Afwd, l._Bname, l._Bfwd, l._cigar, l._features)

/-! ## Helper lemmas: CIGAR extents -/

/-- Sums over operation classes are nonnegative. -/
theorem opSum_nonneg (ops : List Char) : ∀ ts, 0 ≤ opSum ops ts := by
  intro ts
  induction ts with
  | nil => simp [opSum]
  | cons t ts ih =>
      obtain ⟨n, c⟩ := t
      simp only [opSum]
      split <;> positivity

/-- Characterisation of a successful extents computation: each output is the
sum of the lengths of the tokens of its operation class, the alignment
length dominates the other two by exactly the D- and I-sums, and all
outputs are nonnegative. -/
theorem cigarExtents_char : ∀ ts q r a, cigarExtents ts = .ok (q, r, a) →
    q = opSum ['M', 'I'] ts ∧ r = opSum ['M', 'D'] ts ∧
    a = opSum ['M', 'I', 'D'] ts ∧
    a = q + opSum ['D'] ts ∧ a = r + opSum ['I'] ts ∧
    0 ≤ q ∧ 0 ≤ r ∧ 0 ≤ a := by
  intro ts
  induction ts with
  | nil =>
      intro q r a h
      simp only [cigarExtents, Except.ok.injEq, Prod.mk.injEq] at h
      obtain ⟨hq, hr, ha⟩ := h
      subst hq; subst hr; subst ha
      simp [opSum]
  | cons t ts ih =>
      obtain ⟨n, c⟩ := t
      intro q r a h
      simp only [cigarExtents] at h
      by_cases hM : c = 'M'
      · subst hM
        rw [if_pos rfl] at h
        cases hrec : cigarExtents ts with
        | error e => rw [hrec] at h; exact absurd h (by simp)
        | ok x =>
            obtain ⟨q', r', a'⟩ := x
            rw [hrec] at h
            simp only [Except.ok.injEq, Prod.mk.injEq] at h
            obtain ⟨hq, hr, ha⟩ := h
            obtain ⟨e1, e2, e3, e4, e5, e6, e7, e8⟩ := ih q' r' a' hrec
            subst hq; subst hr; subst ha
            simp +decide [opSum]
            omega
      · rw [if_neg hM] at h
        by_cases hI : c = 'I'
        · subst hI
          rw [if_pos rfl] at h
          cases hrec : cigarExtents ts with
          | error e => rw [hrec] at h; exact absurd h (by simp)
          | ok x =>
              obtain ⟨q', r', a'⟩ := x
              rw [hrec] at h
              simp only [Except.ok.injEq, Prod.mk.injEq] at h
              obtain ⟨hq, hr, ha⟩ := h
              obtain ⟨e1, e2, e3, e4, e5, e6, e7, e8⟩ := ih q' r' a' hrec
              subst hq; subst hr; subst ha
              simp +decide [opSum]
              omega
        · rw [if_neg hI] at h
          by_cases hD : c = 'D'
          · subst hD
            rw [if_pos rfl] at h
            cases hrec : cigarExtents ts with
            | error e => rw [hrec] at h; exact absurd h (by simp)
            | ok x =>
                obtain ⟨q', r', a'⟩ := x
                rw [hrec] at h
                simp only [Except.ok.injEq, Prod.mk.injEq] at h
                obtain ⟨hq, hr, ha⟩ := h
                obtain ⟨e1, e2, e3, e4, e5, e6, e7, e8⟩ := ih q' r' a' hrec
                subst hq; subst hr; subst ha
                simp +decide [opSum]
                omega
          · rw [if_neg hD] at h
            exact absurd h (by simp)

/-- A token list containing an operation outside M, I, D makes the extents
computation fail with `UnsupportedCigarOp`. -/
theorem cigarExtents_badop : ∀ ts : List (Nat × Char),
    (∃ t ∈ ts, t.2 ∉ (['M', 'I', 'D'] : List Char)) →
    cigarExtents ts = .error .UnsupportedCigarOp := by
  intro ts
  induction ts with
  | nil => rintro ⟨t, ht, _⟩; exact absurd ht (List.not_mem_nil t)
  | cons t ts ih =>
      obtain ⟨n, c⟩ := t
      rintro ⟨u, hu, hbad⟩
      rcases List.mem_cons.mp hu with h | h
      · subst h
        simp only [List.mem_cons, List.mem_singleton] at hbad
        push_neg at hbad
        obtain ⟨hM, hI, hD⟩ := hbad
        simp [cigarExtents, hM, hI, hD]
      · have htail : cigarExtents ts = .error .UnsupportedCigarOp := ih ⟨u, h, hbad⟩
        by_cases hM : c = 'M'
        · subst hM; simp [cigarExtents, htail]
        · by_cases hI : c = 'I'
          · subst hI; simp [cigarExtents, hM, htail]
          · by_cases hD : c = 'D'
            · subst hD; simp [cigarExtents, hM, hI, htail]
            · simp [cigarExtents, hM, hI, hD]

/-- Rewrites the alignment query on a tokenisable CIGAR to the extents
computation (a tokenisable string cannot be the placeholder). -/
theorem alignmentLengthOf_eq (s : String) (ts : List (Nat × Char))
    (h : cigarTokens s = some ts) : alignmentLengthOf s = cigarExtents ts := by
  have hs : s ≠ "*" := by
    rintro rfl
    rw [show cigarTokens "*" = none from by decide] at h
    cases h
  simp [alignmentLengthOf, hs, h]

/-- C1: for every CIGAR string accepted by the per-Link alignmentLength
query, the three outputs are the sums over its tokens — M counts toward
all three lengths, I toward query and align only, D toward reference and
align only; in particular "10M2I3D" yields (12, 13, 15) and "5M" yields
(5, 5, 5). -/
theorem C1_alignment_sums :
    (∀ (s : String) (ts : List (Nat × Char)) (q r a : Int),
        cigarTokens s = some ts → alignmentLengthOf s = .ok (q, r, a) →
        q = opSum ['M', 'I'] ts ∧ r = opSum ['M', 'D'] ts ∧
        a = opSum ['M', 'I', 'D'] ts) ∧
    alignmentLengthOf "10M2I3D" = .ok (12, 13, 15) ∧
    alignmentLengthOf "5M" = .ok (5, 5, 5) := by
  refine ⟨?_, rfl, rfl⟩
  intro s ts q r a hts hok
  rw [alignmentLengthOf_eq s ts hts] at hok
  obtain ⟨e1, e2, e3, _⟩ := cigarExtents_char ts q r a hok
  exact ⟨e1, e2, e3⟩

/-- Witness for C1 at the concrete input "10M2I3D". -/
theorem C1_alignment_sums_w :
    (12 : Int) = opSum ['M', 'I'] [(10, 'M'), (2, 'I'), (3, 'D')] ∧
    (13 : Int) = opSum ['M', 'D'] [(10, 'M'), (2, 'I'), (3, 'D')] ∧
    (15 : Int) = opSum ['M', 'I', 'D'] [(10, 'M'), (2, 'I'), (3, 'D')] :=
  C1_alignment_sums.1 "10M2I3D" [(10, 'M'), (2, 'I'), (3, 'D')] 12 13 15
    (by decide) rfl

/-- C6: the CIGAR extent calculator answers (0, 0, 0) without error on the
placeholder token, fails with MalformedCigar on every malformed
tokenisation (such as "M10"), and fails with UnsupportedCigarOp whenever a
well-tokenised string has a token whose operation is outside M, I, D. -/
theorem C6_cigar_error_kinds :
    alignmentLengthOf "*" = .ok (0, 0, 0) ∧
    (∀ s : String, s ≠ "*" → cigarTokens s = none →
        alignmentLengthOf s = .error .MalformedCigar) ∧
    (∀ (s : String) (ts : List (Nat × Char)), cigarTokens s = some ts →
        (∃ t ∈ ts, t.2 ∉ (['M', 'I', 'D'] : List Char)) →
        alignmentLengthOf s = .error .UnsupportedCigarOp) ∧
    alignmentLengthOf "M10" = .error .MalformedCigar := by
  refine ⟨rfl, ?_, ?_, ?_⟩
  · intro s hs h
    simp [alignmentLengthOf, hs, h]
  · intro s ts hts hbad
    rw [alignmentLengthOf_eq s ts hts]
    exact cigarExtents_badop ts hbad
  · rfl

/-- Witness for C6 at the concrete inputs "M10" and "10X". -/
theorem C6_cigar_error_kinds_w :
    alignmentLengthOf "M10" = .error .MalformedCigar ∧
    alignmentLengthOf "10X" = .error .UnsupportedCigarOp :=
  ⟨C6_cigar_error_kinds.2.1 "M10" (by decide) (by decide),
   C6_cigar_error_kinds.2.2.1 "10X" [(10, 'X')] (by decide)
     ⟨(10, 'X'), by decide, by decide⟩⟩

/-- C10: on every accepted CIGAR, alignLength = queryLength + (sum of D
lengths) = referenceLength + (sum of I lengths); all three outputs are
nonnegative and alignLength dominates the other two. -/
theorem C10_alignment_invariants :
    (∀ (s : String) (ts : List (Nat × Char)) (q r a : Int),
        cigarTokens s = some ts → alignmentLengthOf s = .ok (q, r, a) →
        a = q + opSum ['D'] ts ∧ a = r + opSum ['I'] ts) ∧
    (∀ (s : String) (q r a : Int), alignmentLengthOf s = .ok (q, r, a) →
        0 ≤ q ∧ 0 ≤ r ∧ 0 ≤ a ∧ q ≤ a ∧ r ≤ a) := by
  constructor
  · intro s ts q r a hts hok
    rw [alignmentLengthOf_eq s ts hts] at hok
    obtain ⟨_, _, _, e4, e5, _⟩ := cigarExtents_char ts q r a hok
    exact ⟨e4, e5⟩
  · intro s q r a hok
    by_cases hs : s = "*"
    · subst hs
      have h2 : (Except.ok (q, r, a) : Except RecErr (Int × Int × Int)) = .ok (0, 0, 0) := by
        rw [← hok]; rfl
      simp only [Except.ok.injEq, Prod.mk.injEq] at h2
      omega
    · cases hts : cigarTokens s with
      | none =>
          simp only [alignmentLengthOf, if_neg hs, hts] at hok
          cases hok
      | some ts =>
          rw [alignmentLengthOf_eq s ts hts] at hok
          obtain ⟨_, _, _, e4, e5, h6, h7, h8⟩ := cigarExtents_char ts q r a hok
          have hd := opSum_nonneg ['D'] ts
          have hi := opSum_nonneg ['I'] ts
          exact ⟨h6, h7, h8, by omega, by omega⟩

/-- Witness for C10 at the concrete inputs "10M2I3D" and "5M". -/
theorem C10_alignment_invariants_w :
    ((15 : Int) = 12 + opSum ['D'] [(10, 'M'), (2, 'I'), (3, 'D')] ∧
     (15 : Int) = 13 + opSum ['I'] [(10, 'M'), (2, 'I'), (3, 'D')]) ∧
    ((0 : Int) ≤ 5 ∧ (0 : Int) ≤ 5 ∧ (0 : Int) ≤ 5 ∧
     (5 : Int) ≤ 5 ∧ (5 : Int) ≤ 5) :=
  ⟨C10_alignment_invariants.1 "10M2I3D" [(10, 'M'), (2, 'I'), (3, 'D')] 12 13 15
     (by decide) rfl,
   C10_alignment_invariants.2 "5M" 5 5 5 rfl⟩

/-! ## Helper lemmas: tab-separated fields -/

/-- No piece produced by `splitOnP` contains an element satisfying the
predicate. -/
theorem mem_splitOnP_not {α : Type} (p : α → Bool) :
    ∀ (xs l : List α), l ∈ xs.splitOnP p → ∀ a ∈ l, p a = false := by
  intro xs
  induction xs with
  | nil =>
      intro l hl a ha
      rw [List.splitOnP_nil] at hl
      simp only [List.mem_singleton] at hl
      subst hl
      exact absurd ha (List.not_mem_nil a)
  | cons x xs ih =>
      intro l hl a ha
      rw [List.splitOnP_cons] at hl
      by_cases hp : p x
      · rw [if_pos hp] at hl
        rcases List.mem_cons.mp hl with h | h
        · subst h; exact absurd ha (List.not_mem_nil a)
        · exact ih l h a ha
      · rw [if_neg hp] at hl
        cases hsp : xs.splitOnP p with
        | nil => exact absurd hsp (List.splitOnP_ne_nil p xs)
        | cons hd tl =>
            rw [hsp] at hl
            simp only [List.modifyHead] at hl
            rcases List.mem_cons.mp hl with h1 | h1
            · subst h1
              rcases List.mem_cons.mp ha with h2 | h2
              · subst h2; exact Bool.eq_false_iff.mpr hp
              · exact ih hd (by rw [hsp]; exact List.mem_cons_self hd tl) a h2
            · exact ih l (by rw [hsp]; exact List.mem_cons_of_mem hd h1) a ha

/-- Every field produced by splitting a line on tabs is tab-free. -/
theorem splitTab_tabFree (s : String) : ∀ f ∈ splitTab s, '\t' ∉ f.data := by
  intro f hf
  simp only [splitTab, List.mem_map] at hf
  obtain ⟨cs, hcs, hmk⟩ := hf
  subst hmk
  intro hmem
  have := mem_splitOnP_not (fun a => a == '\t') s.data cs (by simpa [List.splitOn] using hcs) '\t' hmem
  simp at this

/-- Appending field blocks commutes with the tab join. -/
theorem tabJoinChars_append : ∀ (xs ys : List (List Char)), xs ≠ [] → ys ≠ [] →
    tabJoinChars (xs ++ ys) = tabJoinChars xs ++ '\t' :: tabJoinChars ys
  | [], _, hx, _ => absurd rfl hx
  | [_], [], _, hy => absurd rfl hy
  | [f], g :: ys, _, _ => by simp [tabJoinChars]
  | f :: g :: xs, ys, _, hy => by
      have ih := tabJoinChars_append (g :: xs) ys (by simp) hy
      show f ++ '\t' :: tabJoinChars ((g :: xs) ++ ys) =
        (f ++ '\t' :: tabJoinChars (g :: xs)) ++ '\t' :: tabJoinChars ys
      rw [ih]
      simp

/-- Splitting a tab join of nonempty, tab-free fields recovers the fields. -/
theorem splitTab_tabJoin : ∀ fs : List String, (∀ f ∈ fs, '\t' ∉ f.data) → fs ≠ [] →
    splitTab (tabJoin fs) = fs
  | [], _, hne => absurd rfl hne
  | [f], h, _ => by
      have hf : ∀ x ∈ f.data, ¬((x == '\t') = true) := by
        intro x hx hbeq
        exact h f (List.mem_singleton_self f) (by rwa [eq_of_beq hbeq] at hx)
      simp only [tabJoin, List.map, tabJoinChars, splitTab, List.splitOn]
      rw [List.splitOnP_eq_single _ _ hf]
      rfl
  | f :: g :: fs, h, _ => by
      have hf : ∀ x ∈ f.data, ¬((x == '\t') = true) := by
        intro x hx hbeq
        exact h f (List.mem_cons_self f _) (by rwa [eq_of_beq hbeq] at hx)
      have ih := splitTab_tabJoin (g :: fs)
        (fun t ht => h t (List.mem_cons_of_mem f ht)) (by simp)
      simp only [tabJoin, List.map, splitTab, List.splitOn] at ih ⊢
      rw [show tabJoinChars (f.data :: g.data :: List.map String.data fs) =
            f.data ++ '\t' :: tabJoinChars (g.data :: List.map String.data fs) from rfl]
      rw [List.splitOnP_first _ f.data hf '\t' (beq_self_eq_true '\t')]
      simp only [List.map]
      rw [ih]

/-- The tab join is a left inverse of the tab split on whole lines. -/
theorem tabJoin_splitTab (s : String) : tabJoin (splitTab s) = s := by
  have key : ∀ xss : List (List Char), tabJoinChars xss = List.intercalate ['\t'] xss := by
    intro xss
    induction xss with
    | nil => simp [tabJoinChars, List.intercalate]
    | cons f xss ih =>
        cases xss with
        | nil => simp [tabJoinChars, List.intercalate, List.intersperse]
        | cons g xss =>
            simp only [tabJoinChars, List.intercalate] at ih ⊢
            rw [List.intersperse_cons_cons, List.flatten_cons, List.flatten_cons, ih]
            simp [List.intercalate]
  have hmapdata : (splitTab s).map String.data = s.data.splitOn '\t' := by
    simp only [splitTab, List.map_map]
    apply List.map_id''
    intro x
    rfl
  calc tabJoin (splitTab s)
      = ⟨tabJoinChars ((splitTab s).map String.data)⟩ := rfl
    _ = ⟨tabJoinChars (s.data.splitOn '\t')⟩ := by rw [hmapdata]
    _ = ⟨List.intercalate ['\t'] (s.data.splitOn '\t')⟩ := by rw [key]
    _ = ⟨s.data⟩ := by rw [List.intercalate_splitOn]
    _ = s := rfl

/-! ## Helper lemmas: record codec -/

/-- When no element yields a value, `findSome?` finds nothing. -/
theorem findSome?_eq_none_of {α β : Type} (f : α → Option β) :
    ∀ l : List α, (∀ x ∈ l, f x = none) → l.findSome? f = none := by
  intro l
  induction l with
  | nil => intro _; rfl
  | cons x xs ih =>
      intro h
      rw [List.findSome?_cons, h x (List.mem_cons_self x xs)]
      exact ih fun t ht => h t (List.mem_cons_of_mem x ht)

/-- Evaluation of Parse Segment on a line with at least two fields after
the marker. -/
theorem gfaSequence_load_fields (ln marker name seq : String) (tags : List String)
    (h : splitTab ln = marker :: name :: seq :: tags) :
    gfaSequence.load ln = .ok
      { _name := name, _id := 0, _sequence := seq,
        _features := tabJoin (tags.filter fun t => (lengthTagValue t).isNone),
        _length := match tags.findSome? lengthTagValue with
                   | some v => v
                   | none => if seq = "*" then 0 else seq.length } := by
  simp only [gfaSequence.load, h]

/-- Evaluation of Parse Link on a line with at least five fields after the
marker. -/
theorem gfaLink_load_fields (ln marker an ao bn bo cg : String) (tags : List String)
    (h : splitTab ln = marker :: an :: ao :: bn :: bo :: cg :: tags) :
    gfaLink.load ln =
      match parseOrient ao, parseOrient bo with
      | .ok af, .ok bf =>
          .ok { _Aname := an, _Aid := 0, _Afwd := af,
                _Bname := bn, _Bid := 0, _Bfwd := bf,
                _cigar := cg, _features := tabJoin tags }
      | .error e, _ => .error e
      | _, .error e => .error e := by
  simp only [gfaLink.load, h]

/-- C2: the derived segment length is the explicit length tag's value when
one is present, else the character count of a non-placeholder sequence,
else 0; concretely, sequence "ACGTACGT" without a length tag gives 8, a
placeholder sequence without a length tag gives 0, and an explicit
LN:i:100 tag beats a shorter literal sequence. -/
theorem C2_segment_length :
    (∀ (ln marker name seq : String) (tags : List String) (s : gfaSequence) (v : Nat),
        splitTab ln = marker :: name :: seq :: tags →
        gfaSequence.load ln = .ok s →
        tags.findSome? lengthTagValue = some v → s._length = v) ∧
    (∀ (ln marker name seq : String) (tags : List String) (s : gfaSequence),
        splitTab ln = marker :: name :: seq :: tags →
        gfaSequence.load ln = .ok s →
        (∀ t ∈ tags, lengthTagValue t = none) → seq ≠ "*" →
        s._length = seq.length) ∧
    (∀ (ln marker name : String) (tags : List String) (s : gfaSequence),
        splitTab ln = marker :: name :: "*" :: tags →
        gfaSequence.load ln = .ok s →
        (∀ t ∈ tags, lengthTagValue t = none) →
        s._length = 0) ∧
    gfaSequence.load "S\tA\tACGTACGT" = .ok ⟨"A", 0, "ACGTACGT", "", 8⟩ ∧
    gfaSequence.load "S\tA\t*" = .ok ⟨"A", 0, "*", "", 0⟩ ∧
    gfaSequence.load "S\tA\tACG\tLN:i:100" = .ok ⟨"A", 0, "ACG", "", 100⟩ := by
  refine ⟨?_, ?_, ?_, rfl, rfl, rfl⟩
  · intro ln marker name seq tags s v h hok hfind
    rw [gfaSequence_load_fields ln marker name seq tags h] at hok
    injection hok with h2
    subst h2
    simp [hfind]
  · intro ln marker name seq tags s h hok hnone hseq
    rw [gfaSequence_load_fields ln marker name seq tags h] at hok
    injection hok with h2
    subst h2
    simp [findSome?_eq_none_of lengthTagValue tags hnone, hseq]
  · intro ln marker name tags s h hok hnone
    rw [gfaSequence_load_fields ln marker name "*" tags h] at hok
    injection hok with h2
    subst h2
    simp [findSome?_eq_none_of lengthTagValue tags hnone]

/-- Witness for C2 on the line "S name ACG LN:i:100" (tab-separated). -/
theorem C2_segment_length_w :
    (⟨"A", 0, "ACG", "", 100⟩ : gfaSequence)._length = 100 :=
  C2_segment_length.1 "S\tA\tACG\tLN:i:100" "S" "A" "ACG" ["LN:i:100"]
    ⟨"A", 0, "ACG", "", 100⟩ 100 (by decide) rfl (by decide)

/-- C7: Parse Segment succeeds exactly when at least 2 fields follow the
marker; Parse Link succeeds exactly when at least 5 fields follow the
marker and both orientation fields are "+" or "-"; every parse failure of
either codec is MalformedRecord; concretely, orientation "x" and a
1-field segment line are MalformedRecord. -/
theorem C7_malformed_records :
    (∀ ln : String, (∃ s, gfaSequence.load ln = .ok s) ↔
        2 ≤ (splitTab ln).tail.length) ∧
    (∀ (ln : String) (e : RecErr), gfaSequence.load ln = .error e →
        e = .MalformedRecord) ∧
    (∀ ln : String, (∃ l, gfaLink.load ln = .ok l) ↔
        (5 ≤ (splitTab ln).tail.length ∧
         (splitTab ln).tail.getD 1 "" ∈ (["+", "-"] : List String) ∧
         (splitTab ln).tail.getD 3 "" ∈ (["+", "-"] : List String))) ∧
    (∀ (ln : String) (e : RecErr), gfaLink.load ln = .error e →
        e = .MalformedRecord) ∧
    gfaLink.load "L\tA\tx\tB\t-\t5M" = .error .MalformedRecord ∧
    gfaSequence.load "S\tA" = .error .MalformedRecord := by
  refine ⟨?_, ?_, ?_, ?_, rfl, rfl⟩
  · intro ln
    rcases h : splitTab ln with _ | ⟨m, _ | ⟨f1, _ | ⟨f2, rest⟩⟩⟩
    · simp [gfaSequence.load, h]
    · simp [gfaSequence.load, h]
    · simp [gfaSequence.load, h]
    · simp [gfaSequence.load, h]
  · intro ln e he
    rcases h : splitTab ln with _ | ⟨m, _ | ⟨f1, _ | ⟨f2, rest⟩⟩⟩ <;>
      simp only [gfaSequence.load, h] at he
    · injection he with h2; exact h2.symm
    · injection he with h2; exact h2.symm
    · injection he with h2; exact h2.symm
    · simp at he
  · intro ln
    rcases h : splitTab ln with _ | ⟨m, _ | ⟨f1, _ | ⟨f2, _ | ⟨f3, _ | ⟨f4, _ | ⟨f5, tags⟩⟩⟩⟩⟩⟩
    · simp [gfaLink.load, h]
    · simp [gfaLink.load, h]
    · simp [gfaLink.load, h]
    · simp [gfaLink.load, h]
    · simp [gfaLink.load, h]
    · simp [gfaLink.load, h]
    · rw [gfaLink_load_fields ln m f1 f2 f3 f4 f5 tags h]
      by_cases h2p : f2 = "+"
      · subst h2p
        by_cases h4p : f4 = "+"
        · subst h4p
          simp [parseOrient, h]
        · by_cases h4m : f4 = "-"
          · subst h4m
            simp [parseOrient, h]
          · simp [parseOrient, h, h4p, h4m]
      · by_cases h2m : f2 = "-"
        · subst h2m
          by_cases h4p : f4 = "+"
          · subst h4p
            simp [parseOrient, h]
          · by_cases h4m : f4 = "-"
            · subst h4m
              simp [parseOrient, h]
            · simp [parseOrient, h, h4p, h4m]
        · simp [parseOrient, h, h2p, h2m]
  · intro ln e he
    rcases h : splitTab ln with _ | ⟨m, _ | ⟨f1, _ | ⟨f2, _ | ⟨f3, _ | ⟨f4, _ | ⟨f5, tags⟩⟩⟩⟩⟩⟩
    · simp only [gfaLink.load, h] at he; injection he with h2; exact h2.symm
    · simp only [gfaLink.load, h] at he; injection he with h2; exact h2.symm
    · simp only [gfaLink.load, h] at he; injection he with h2; exact h2.symm
    · simp only [gfaLink.load, h] at he; injection he with h2; exact h2.symm
    · simp only [gfaLink.load, h] at he; injection he with h2; exact h2.symm
    · simp only [gfaLink.load, h] at he; injection he with h2; exact h2.symm
    · rw [gfaLink_load_fields ln m f1 f2 f3 f4 f5 tags h] at he
      by_cases h2p : f2 = "+"
      · subst h2p
        by_cases h4p : f4 = "+"
        · subst h4p
          simp [parseOrient] at he
        · by_cases h4m : f4 = "-"
          · subst h4m
            simp [parseOrient] at he
          · simp only [parseOrient, if_neg h4p, if_neg h4m, if_pos rfl] at he
            injection he with h2; exact h2.symm
      · by_cases h2m : f2 = "-"
        · subst h2m
          by_cases h4p : f4 = "+"
          · subst h4p
            simp [parseOrient] at he
          · by_cases h4m : f4 = "-"
            · subst h4m
              simp [parseOrient] at he
            · simp only [parseOrient, if_neg h4p, if_neg h4m, if_pos rfl] at he
              injection he with h2; exact h2.symm
        · simp only [parseOrient, if_neg h2p, if_neg h2m] at he
          injection he with h2; exact h2.symm

/-- Witness for C7 at a well-formed segment line and a link line with a bad
orientation. -/
theorem C7_malformed_records_w :
    ((∃ s, gfaSequence.load "S\tA\tACGT" = .ok s) ↔
        2 ≤ (splitTab "S\tA\tACGT").tail.length) ∧
    ((∃ l, gfaLink.load "L\tA\tx\tB\t-\t5M" = .ok l) ↔
        (5 ≤ (splitTab "L\tA\tx\tB\t-\t5M").tail.length ∧
         (splitTab "L\tA\tx\tB\t-\t5M").tail.getD 1 "" ∈ (["+", "-"] : List String) ∧
         (splitTab "L\tA\tx\tB\t-\t5M").tail.getD 3 "" ∈ (["+", "-"] : List String))) ∧
    (RecErr.MalformedRecord = RecErr.MalformedRecord) :=
  ⟨C7_malformed_records.1 "S\tA\tACGT",
   C7_malformed_records.2.2.1 "L\tA\tx\tB\t-\t5M",
   C7_malformed_records.2.2.2.1 "L\tA\tx\tB\t-\t5M" .MalformedRecord rfl⟩

/-- C9: every optional tag field not recognised as the length tag is
concatenated verbatim, separator-preserving, into features; Serialize
Segment emits marker, name, sequence, then features verbatim, and a parsed
segment's features never contain a recognised length tag (so length is
never re-emitted). -/
theorem C9_features_passthrough :
    (∀ (ln marker name seq : String) (tags : List String) (s : gfaSequence),
        splitTab ln = marker :: name :: seq :: tags →
        gfaSequence.load ln = .ok s →
        s._features = tabJoin (tags.filter fun t => (lengthTagValue t).isNone) ∧
        ∀ t ∈ splitTab s._features, (lengthTagValue t).isNone) ∧
    (∀ s : gfaSequence, s._features ≠ "" →
        gfaSequence.save s = tabJoin ["S", s._name, s._sequence] ++ "\t" ++ s._features) ∧
    (∀ s : gfaSequence, s._features = "" →
        gfaSequence.save s = tabJoin ["S", s._name, s._sequence]) := by
  refine ⟨?_, ?_, ?_⟩
  · intro ln marker name seq tags s h hok
    rw [gfaSequence_load_fields ln marker name seq tags h] at hok
    injection hok with h2
    subst h2
    refine ⟨rfl, ?_⟩
    cases hfilt : tags.filter (fun t => (lengthTagValue t).isNone) with
    | nil =>
        simp only [hfilt]
        rw [show tabJoin ([] : List String) = "" from rfl,
            show splitTab "" = [""] from rfl]
        intro t ht
        simp only [List.mem_singleton] at ht
        subst ht
        decide
    | cons a l =>
        simp only [hfilt]
        have hsub : ∀ t ∈ (a :: l : List String), '\t' ∉ t.data := by
          intro t ht
          rw [← hfilt] at ht
          have htags : t ∈ tags := List.mem_of_mem_filter ht
          refine splitTab_tabFree ln t ?_
          rw [h]
          exact List.mem_cons_of_mem _ (List.mem_cons_of_mem _ (List.mem_cons_of_mem _ htags))
        rw [splitTab_tabJoin _ hsub (by simp)]
        intro t ht
        rw [← hfilt] at ht
        exact (List.mem_filter.mp ht).2
  · intro s hne
    simp only [gfaSequence.save, if_neg hne]
    rw [← String.append_assoc]
  · intro s he
    simp [gfaSequence.save, he]

/-- Witness for C9 on the segment line "S A ACG XX:i:7 LN:i:9 YY:Z:q"
(tab-separated): the LN tag is recognised and dropped, the other two tags
pass through verbatim. -/
theorem C9_features_passthrough_w :
    (⟨"A", 0, "ACG", "XX:i:7\tYY:Z:q", 9⟩ : gfaSequence)._features =
      tabJoin (["XX:i:7", "LN:i:9", "YY:Z:q"].filter fun t => (lengthTagValue t).isNone) :=
  (C9_features_passthrough.1 "S\tA\tACG\tXX:i:7\tLN:i:9\tYY:Z:q" "S" "A" "ACG"
    ["XX:i:7", "LN:i:9", "YY:Z:q"] ⟨"A", 0, "ACG", "XX:i:7\tYY:Z:q", 9⟩
    (by decide) rfl).1

/-! ## Helper lemmas: identity resolver -/

/-- The index of a present name is below the list length. -/
theorem idOf_lt_of_mem : ∀ (names : List String) (n : String), n ∈ names →
    idOf names n < names.length := by
  intro names
  induction names with
  | nil => intro n hn; exact absurd hn (List.not_mem_nil n)
  | cons m names ih =>
      intro n hn
      by_cases hm : m = n
      · simp [idOf, hm]
      · rcases List.mem_cons.mp hn with h | h
        · exact absurd h.symm hm
        · simp only [idOf, if_neg hm, List.length_cons]
          exact Nat.succ_lt_succ (ih n h)

/-- Extending the name list on the right does not change the index of a
name already present. -/
theorem idOf_append_of_mem : ∀ (names ms : List String) (n : String), n ∈ names →
    idOf (names ++ ms) n = idOf names n := by
  intro names ms
  induction names with
  | nil => intro n hn; exact absurd hn (List.not_mem_nil n)
  | cons m names ih =>
      intro n hn
      by_cases hm : m = n
      · simp [idOf, hm]
      · rcases List.mem_cons.mp hn with h | h
        · exact absurd h.symm hm
        · simp only [List.cons_append, idOf, if_neg hm, List.append_eq]
          rw [ih n h]

/-- A newly appended name receives the old length as its index. -/
theorem idOf_append_self : ∀ (names : List String) (n : String), n ∉ names →
    idOf (names ++ [n]) n = names.length := by
  intro names
  induction names with
  | nil => intro n _; simp [idOf]
  | cons m names ih =>
      intro n hn
      have hm : m ≠ n := fun h => hn (h ▸ List.mem_cons_self m names)
      simp only [List.cons_append, idOf, if_neg hm, List.length_cons, List.append_eq]
      rw [ih n (fun h => hn (List.mem_cons_of_mem m h))]

/-- On a duplicate-free name list, the index determines the name. -/
theorem idOf_inj : ∀ (names : List String), names.Nodup →
    ∀ n m, n ∈ names → m ∈ names → idOf names n = idOf names m → n = m := by
  intro names
  induction names with
  | nil => intro _ n m hn; exact absurd hn (List.not_mem_nil n)
  | cons a names ih =>
      intro hnd n m hn hm hid
      have hnd' := List.nodup_cons.mp hnd
      by_cases han : a = n <;> by_cases ham : a = m
      · rw [← han, ← ham]
      · rw [idOf, if_pos han, idOf, if_neg ham] at hid
        exact absurd hid.symm (Nat.succ_ne_zero _)
      · rw [idOf, if_neg han, idOf, if_pos ham] at hid
        exact absurd hid (Nat.succ_ne_zero _)
      · rw [idOf, if_neg han, idOf, if_neg ham] at hid
        have hn' : n ∈ names := by
          rcases List.mem_cons.mp hn with h | h
          · exact absurd h.symm han
          · exact h
        have hm' : m ∈ names := by
          rcases List.mem_cons.mp hm with h | h
          · exact absurd h.symm ham
          · exact h
        exact ih hnd'.2 n m hn' hm' (Nat.succ_injective hid)

/-- The resolver preserves duplicate-freeness of its name list. -/
theorem resolve_nodup (names : List String) (n : String) (h : names.Nodup) :
    (resolve names n).1.Nodup := by
  unfold resolve
  by_cases hn : n ∈ names
  · simp [hn, h]
  · simp only [hn, if_neg, reduceIte]
    refine List.Nodup.append h (List.nodup_singleton n) ?_
    intro a ha hb
    rw [List.mem_singleton] at hb
    exact hn (hb ▸ ha)

/-- The resolver never removes a name. -/
theorem resolve_mem_preserved (names : List String) (n m : String) (h : m ∈ names) :
    m ∈ (resolve names n).1 := by
  unfold resolve
  by_cases hn : n ∈ names
  · simp only [hn, if_pos]
    exact h
  · simp only [hn, if_neg, reduceIte]
    exact List.mem_append_left _ h

/-- The resolver never changes the index of a name already present. -/
theorem resolve_idOf_preserved (names : List String) (n m : String) (h : m ∈ names) :
    idOf (resolve names n).1 m = idOf names m := by
  unfold resolve
  by_cases hn : n ∈ names
  · simp [hn]
  · simp only [hn, if_neg, reduceIte]
    exact idOf_append_of_mem names [n] m h

/-- The queried name is present afterwards. -/
theorem resolve_self_mem (names : List String) (n : String) :
    n ∈ (resolve names n).1 := by
  unfold resolve
  by_cases hn : n ∈ names
  · simp only [hn, if_pos]
  · simp only [hn, if_neg, reduceIte]
    exact List.mem_append_right _ (List.mem_singleton_self n)

/-- The returned id is the queried name's index in the returned list. -/
theorem resolve_self_id (names : List String) (n : String) :
    (resolve names n).2 = idOf (resolve names n).1 n := by
  unfold resolve
  by_cases hn : n ∈ names
  · simp [hn]
  · simp only [hn, if_neg, reduceIte]
    exact (idOf_append_self names n hn).symm

/-- One load step preserves the resolver invariant: the name list is
duplicate-free and every stored id is the index of its name in the name
list. -/
theorem loadLine_inv (st st' : LoadState) (ln : String)
    (h : loadLine st ln = .ok st')
    (hnd : st.names.Nodup)
    (hseq : ∀ s ∈ st.file._sequences,
        s._name ∈ st.names ∧ s._id = idOf st.names s._name)
    (hlink : ∀ l ∈ st.file._links,
        l._Aname ∈ st.names ∧ l._Aid = idOf st.names l._Aname ∧
        l._Bname ∈ st.names ∧ l._Bid = idOf st.names l._Bname) :
    st'.names.Nodup ∧
    (∀ s ∈ st'.file._sequences,
        s._name ∈ st'.names ∧ s._id = idOf st'.names s._name) ∧
    (∀ l ∈ st'.file._links,
        l._Aname ∈ st'.names ∧ l._Aid = idOf st'.names l._Aname ∧
        l._Bname ∈ st'.names ∧ l._Bid = idOf st'.names l._Bname) := by
  rcases hsp : splitTab ln with _ | ⟨marker, rest⟩ <;>
    simp only [loadLine, hsp] at h
  · injection h with h2
    subst h2
    exact ⟨hnd, hseq, hlink⟩
  · by_cases hH : marker = "H"
    · rw [if_pos hH] at h
      injection h with h2
      subst h2
      exact ⟨hnd, hseq, hlink⟩
    · rw [if_neg hH] at h
      by_cases hS : marker = "S"
      · rw [if_pos hS] at h
        cases hld : gfaSequence.load ln with
        | error e => rw [hld] at h; cases h
        | ok s0 =>
            rw [hld] at h
            injection h with h2
            subst h2
            refine ⟨resolve_nodup st.names s0._name hnd, ?_, ?_⟩
            · intro s hs
              rcases List.mem_append.mp hs with hold | hnew
              · obtain ⟨hm, hid⟩ := hseq s hold
                exact ⟨resolve_mem_preserved _ _ _ hm,
                       hid.trans (resolve_idOf_preserved _ _ _ hm).symm⟩
              · rw [List.mem_singleton] at hnew
                subst hnew
                exact ⟨resolve_self_mem _ _, resolve_self_id _ _⟩
            · intro l hl
              obtain ⟨ha, hai, hb, hbi⟩ := hlink l hl
              exact ⟨resolve_mem_preserved _ _ _ ha,
                     hai.trans (resolve_idOf_preserved _ _ _ ha).symm,
                     resolve_mem_preserved _ _ _ hb,
                     hbi.trans (resolve_idOf_preserved _ _ _ hb).symm⟩
      · rw [if_neg hS] at h
        by_cases hL : marker = "L"
        · rw [if_pos hL] at h
          cases hld : gfaLink.load ln with
          | error e => rw [hld] at h; cases h
          | ok l0 =>
              rw [hld] at h
              injection h with h2
              subst h2
              have hndA := resolve_nodup st.names l0._Aname hnd
              refine ⟨resolve_nodup _ l0._Bname hndA, ?_, ?_⟩
              · intro s hs
                obtain ⟨hm, hid⟩ := hseq s hs
                have hm1 := resolve_mem_preserved st.names l0._Aname _ hm
                have hid1 := (resolve_idOf_preserved st.names l0._Aname _ hm).symm
                exact ⟨resolve_mem_preserved _ l0._Bname _ hm1,
                       (hid.trans hid1).trans
                         (resolve_idOf_preserved _ l0._Bname _ hm1).symm⟩
              · intro l hl
                rcases List.mem_append.mp hl with hold | hnew
                · obtain ⟨ha, hai, hb, hbi⟩ := hlink l hold
                  have ha1 := resolve_mem_preserved st.names l0._Aname _ ha
                  have hb1 := resolve_mem_preserved st.names l0._Aname _ hb
                  refine ⟨resolve_mem_preserved _ l0._Bname _ ha1, ?_,
                          resolve_mem_preserved _ l0._Bname _ hb1, ?_⟩
                  · exact (hai.trans
                      (resolve_idOf_preserved st.names l0._Aname _ ha).symm).trans
                      (resolve_idOf_preserved _ l0._Bname _ ha1).symm
                  · exact (hbi.trans
                      (resolve_idOf_preserved st.names l0._Aname _ hb).symm).trans
                      (resolve_idOf_preserved _ l0._Bname _ hb1).symm
                · rw [List.mem_singleton] at hnew
                  subst hnew
                  have haMem : l0._Aname ∈ (resolve st.names l0._Aname).1 :=
                    resolve_self_mem _ _
                  refine ⟨resolve_mem_preserved _ l0._Bname _ haMem, ?_,
                          resolve_self_mem _ _, resolve_self_id _ _⟩
                  exact (resolve_self_id st.names l0._Aname).trans
                    (resolve_idOf_preserved _ l0._Bname _ haMem).symm
        · rw [if_neg hL] at h
          injection h with h2
          subst h2
          exact ⟨hnd, hseq, hlink⟩

/-- The resolver invariant holds at every successful end of a load run. -/
theorem loadAux_inv : ∀ (lines : List String) (st st' : LoadState) (k : Nat),
    loadAux st k lines = .ok st' →
    st.names.Nodup →
    (∀ s ∈ st.file._sequences,
        s._name ∈ st.names ∧ s._id = idOf st.names s._name) →
    (∀ l ∈ st.file._links,
        l._Aname ∈ st.names ∧ l._Aid = idOf st.names l._Aname ∧
        l._Bname ∈ st.names ∧ l._Bid = idOf st.names l._Bname) →
    st'.names.Nodup ∧
    (∀ s ∈ st'.file._sequences,
        s._name ∈ st'.names ∧ s._id = idOf st'.names s._name) ∧
    (∀ l ∈ st'.file._links,
        l._Aname ∈ st'.names ∧ l._Aid = idOf st'.names l._Aname ∧
        l._Bname ∈ st'.names ∧ l._Bid = idOf st'.names l._Bname) := by
  intro lines
  induction lines with
  | nil =>
      intro st st' k h hnd hseq hlink
      injection h with h2
      subst h2
      exact ⟨hnd, hseq, hlink⟩
  | cons l ls ih =>
      intro st st' k h hnd hseq hlink
      simp only [loadAux] at h
      cases hstep : loadLine st l with
      | error e => rw [hstep] at h; cases h
      | ok st1 =>
          rw [hstep] at h
          obtain ⟨hnd1, hseq1, hlink1⟩ := loadLine_inv st st1 l hstep hnd hseq hlink
          exact ih st1 st' (k + 1) h hnd1 hseq1 hlink1

/-- C3: the Identity Resolver assigns dense ids in first-seen order from 0;
repeated queries return the previously assigned id; distinct names get
distinct ids; and after any successful load every stored segment or link
endpoint id (including endpoints never seen as an S line) is the index of
its name in the duplicate-free first-seen name list. -/
theorem C3_identity_resolver :
    (∀ n : String, resolve [] n = ([n], 0)) ∧
    (∀ (names : List String) (n : String), n ∉ names →
        resolve names n = (names ++ [n], names.length)) ∧
    (∀ (names : List String) (n : String),
        (resolve ((resolve names n).1) n).2 = (resolve names n).2 ∧
        (resolve ((resolve names n).1) n).1 = (resolve names n).1) ∧
    (∀ (names : List String) (n m : String), names.Nodup → n ≠ m →
        (resolve ((resolve names n).1) m).2 ≠ (resolve names n).2) ∧
    (∀ (lines : List String) (st : LoadState), loadAux initState 1 lines = .ok st →
        st.names.Nodup ∧
        (∀ s ∈ st.file._sequences,
            s._name ∈ st.names ∧ s._id = idOf st.names s._name) ∧
        (∀ l ∈ st.file._links,
            l._Aname ∈ st.names ∧ l._Aid = idOf st.names l._Aname ∧
            l._Bname ∈ st.names ∧ l._Bid = idOf st.names l._Bname)) := by
  refine ⟨?_, ?_, ?_, ?_, ?_⟩
  · intro n
    simp [resolve]
  · intro names n hn
    simp [resolve, hn]
  · intro names n
    have hmem := resolve_self_mem names n
    constructor
    · conv_lhs => rw [resolve]
      rw [if_pos hmem]
      exact (resolve_self_id names n).symm
    · conv_lhs => rw [resolve]
      rw [if_pos hmem]
  · intro names n m hnd hne
    have hnd1 := resolve_nodup names n hnd
    have hn1 := resolve_self_mem names n
    have hid_n := resolve_self_id names n
    set names1 := (resolve names n).1 with hdef
    by_cases hm : m ∈ names1
    · have hres : (resolve names1 m).2 = idOf names1 m := by
        simp only [resolve, if_pos hm]
      rw [hres]
      intro hcontra
      have heq : idOf names1 n = idOf names1 m :=
        hid_n.symm.trans hcontra.symm
      exact hne (idOf_inj _ hnd1 n m hn1 hm heq)
    · have hres : (resolve names1 m).2 = names1.length := by
        simp only [resolve, if_neg hm]
      rw [hres]
      intro hcontra
      have hlt := idOf_lt_of_mem _ n hn1
      rw [← hid_n, ← hcontra] at hlt
      exact Nat.lt_irrefl _ hlt
  · intro lines st h
    exact loadAux_inv lines initState st 1 h List.nodup_nil
      (by intro s hs; exact absurd hs (List.not_mem_nil s))
      (by intro l hl; exact absurd hl (List.not_mem_nil l))

/-- Witness for C3: the name list after loading one segment line and one
link line introducing a second, never-declared endpoint name. -/
theorem C3_identity_resolver_w :
    ((⟨⟨none, [⟨"A", 0, "ACGT", "", 4⟩],
       [⟨"A", 0, true, "B", 1, false, "4M", ""⟩]⟩,
      ["A", "B"]⟩ : LoadState)).names.Nodup :=
  (C3_identity_resolver.2.2.2.2 ["S\tA\tACGT", "L\tA\t+\tB\t-\t4M"]
    ⟨⟨none, [⟨"A", 0, "ACGT", "", 4⟩],
      [⟨"A", 0, true, "B", 1, false, "4M", ""⟩]⟩, ["A", "B"]⟩ rfl).1

/-! ## Helper lemmas: load dispatch -/

/-- Success of one load step depends only on the line, not on the state. -/
theorem loadLine_ok_iff (st : LoadState) (ln : String) :
    (∃ st', loadLine st ln = .ok st') ↔ lineOk ln = true := by
  rcases hsp : splitTab ln with _ | ⟨marker, rest⟩ <;>
    simp only [loadLine, lineOk, hsp]
  · simp
  · by_cases hH : marker = "H"
    · have hS : marker ≠ "S" := by rw [hH]; decide
      rw [if_pos hH, if_neg hS]
      by_cases hL : marker = "L"
      · exact absurd (hH.symm.trans hL) (by decide)
      · rw [if_neg hL]
        simp
    · rw [if_neg hH]
      by_cases hS : marker = "S"
      · rw [if_pos hS, if_pos hS]
        cases gfaSequence.load ln <;> simp
      · rw [if_neg hS, if_neg hS]
        by_cases hL : marker = "L"
        · rw [if_pos hL, if_pos hL]
          cases gfaLink.load ln <;> simp
        · rw [if_neg hL, if_neg hL]
          simp

/-- A failing load step marks a line that does not parse. -/
theorem loadLine_err (st : LoadState) (ln : String) (e : RecErr)
    (h : loadLine st ln = .error e) : lineOk ln = false := by
  rcases hok : lineOk ln with _ | _
  · rfl
  · obtain ⟨st', hst'⟩ := (loadLine_ok_iff st ln).mpr hok
    rw [hst'] at h
    cases h

/-- A failing load run reports the 1-based number and the text of the first
offending line, which indeed does not parse. -/
theorem loadAux_err : ∀ (ls : List String) (st : LoadState) (k : Nat) (e : LoadErr),
    loadAux st k ls = .error e →
    k ≤ e.line ∧ e.line - k < ls.length ∧
    ls.getD (e.line - k) "" = e.text ∧ lineOk e.text = false := by
  intro ls
  induction ls with
  | nil => intro st k e h; cases h
  | cons l ls ih =>
      intro st k e h
      simp only [loadAux] at h
      cases hstep : loadLine st l with
      | error er =>
          rw [hstep] at h
          injection h with h2
          subst h2
          refine ⟨Nat.le_refl k, ?_, ?_, loadLine_err st l er hstep⟩
          · simp
          · simp
      | ok st1 =>
          rw [hstep] at h
          obtain ⟨h1, h2, h3, h4⟩ := ih st1 (k + 1) e h
          refine ⟨Nat.le_of_succ_le h1, ?_, ?_, h4⟩
          · simp only [List.length_cons]
            omega
          · have hk : e.line - k = (e.line - (k + 1)) + 1 := by omega
            rw [hk, List.getD_cons_succ]
            exact h3

/-- A successful load run means every line parsed. -/
theorem loadAux_ok_all : ∀ (ls : List String) (st : LoadState) (k : Nat)
    (st' : LoadState), loadAux st k ls = .ok st' → ∀ l ∈ ls, lineOk l = true := by
  intro ls
  induction ls with
  | nil => intro st k st' _ l hl; exact absurd hl (List.not_mem_nil l)
  | cons l0 ls ih =>
      intro st k st' h l hl
      simp only [loadAux] at h
      cases hstep : loadLine st l0 with
      | error er => rw [hstep] at h; cases h
      | ok st1 =>
          rw [hstep] at h
          rcases List.mem_cons.mp hl with heq | htail
          · subst heq
            exact (loadLine_ok_iff st l).mp ⟨st1, hstep⟩
          · exact ih st1 (k + 1) st' h l htail

/-- C4: Load is all-or-nothing — a load that returns a File had every line
parse; any unparseable line makes the whole load fail, reporting the
offending line's 1-based number and raw text; concretely a valid segment
line followed by a malformed link line fails at line 2 with that text,
yielding no partial graph. -/
theorem C4_load_all_or_nothing :
    (∀ (lines : List String) (F : gfaFile), gfaFile.loadFile lines = .ok F →
        ∀ l ∈ lines, lineOk l = true) ∧
    (∀ lines : List String, (∃ l ∈ lines, lineOk l = false) →
        ∃ e, gfaFile.loadFile lines = .error e) ∧
    (∀ (lines : List String) (e : LoadErr), gfaFile.loadFile lines = .error e →
        1 ≤ e.line ∧ e.line - 1 < lines.length ∧
        lines.getD (e.line - 1) "" = e.text ∧ lineOk e.text = false) ∧
    gfaFile.loadFile ["S\tA\tACGT", "L\tbad"] =
      .error ⟨2, "L\tbad", .MalformedRecord⟩ := by
  refine ⟨?_, ?_, ?_, rfl⟩
  · intro lines F h
    cases haux : loadAux initState 1 lines with
    | error e =>
        simp only [gfaFile.loadFile, haux, Except.map] at h
        exact Except.noConfusion h
    | ok st => exact loadAux_ok_all lines initState 1 st haux
  · rintro lines ⟨l, hl, hbad⟩
    cases haux : loadAux initState 1 lines with
    | error e =>
        exact ⟨e, by simp only [gfaFile.loadFile, haux, Except.map]⟩
    | ok st =>
        have := loadAux_ok_all lines initState 1 st haux l hl
        rw [this] at hbad
        cases hbad
  · intro lines e h
    cases haux : loadAux initState 1 lines with
    | error e' =>
        simp only [gfaFile.loadFile, haux, Except.map] at h
        injection h with h2
        rw [← h2]
        exact loadAux_err lines initState 1 e' haux
    | ok st =>
        simp only [gfaFile.loadFile, haux, Except.map] at h
        exact Except.noConfusion h

/-- Witness for C4 at the two-line input whose second line is malformed. -/
theorem C4_load_all_or_nothing_w :
    1 ≤ (⟨2, "L\tbad", .MalformedRecord⟩ : LoadErr).line ∧
    (⟨2, "L\tbad", .MalformedRecord⟩ : LoadErr).line - 1 <
      (["S\tA\tACGT", "L\tbad"] : List String).length ∧
    (["S\tA\tACGT", "L\tbad"] : List String).getD
      ((⟨2, "L\tbad", .MalformedRecord⟩ : LoadErr).line - 1) "" =
      (⟨2, "L\tbad", .MalformedRecord⟩ : LoadErr).text ∧
    lineOk (⟨2, "L\tbad", .MalformedRecord⟩ : LoadErr).text = false :=
  C4_load_all_or_nothing.2.2.1 ["S\tA\tACGT", "L\tbad"]
    ⟨2, "L\tbad", .MalformedRecord⟩ rfl

/-! ## Helper lemmas: save -/

/-- Appending one serialised record at a time amounts to mapping the
serialiser over the records. -/
theorem foldl_append_map {α : Type} (f : α → String) :
    ∀ (xs : List α) (out : List String),
      xs.foldl (fun o x => o ++ [f x]) out = out ++ xs.map f := by
  intro xs
  induction xs with
  | nil => intro out; simp
  | cons x xs ih =>
      intro out
      simp only [List.foldl_cons, List.map_cons]
      rw [ih]
      simp

/-- Shape of the saved line list: header, then segments, then links. -/
theorem saveFile_eq (F : gfaFile) :
    gfaFile.saveFile F =
      headerLines F ++ F._sequences.map gfaSequence.save ++
        F._links.map gfaLink.save := by
  simp only [gfaFile.saveFile]
  rw [foldl_append_map, foldl_append_map]

/-- The tab join splits across a concatenation of nonempty field lists. -/
theorem tabJoin_append (A B : List String) (hA : A ≠ []) (hB : B ≠ []) :
    tabJoin (A ++ B) = tabJoin A ++ "\t" ++ tabJoin B := by
  apply String.ext
  simp only [tabJoin, List.map_append, String.data_append]
  rw [tabJoinChars_append (A.map String.data) (B.map String.data)
      (by simpa using hA) (by simpa using hB)]
  simp

/-- C8: Save emits records in fixed grouped order — the header line first
when present, then every Segment in order, then every Link in order; the
input interleaving of S and L lines is never preserved. -/
theorem C8_save_grouped_order :
    (∀ F : gfaFile, gfaFile.saveFile F =
        headerLines F ++ F._sequences.map gfaSequence.save ++
          F._links.map gfaLink.save) ∧
    (∀ (segs : List gfaSequence) (links : List gfaLink),
        gfaFile.saveFile ⟨none, segs, links⟩ =
          segs.map gfaSequence.save ++ links.map gfaLink.save) ∧
    (∀ (h : String) (segs : List gfaSequence) (links : List gfaLink),
        gfaFile.saveFile ⟨some h, segs, links⟩ =
          ("H" ++ (if h = "" then "" else "\t" ++ h)) ::
            (segs.map gfaSequence.save ++ links.map gfaLink.save)) := by
  refine ⟨saveFile_eq, ?_, ?_⟩
  · intro segs links
    rw [saveFile_eq]
    simp [headerLines]
  · intro h segs links
    rw [saveFile_eq]
    simp [headerLines]

/-- Witness for C8 at a one-segment, one-link file with a header. -/
theorem C8_save_grouped_order_w :
    gfaFile.saveFile ⟨some "VN:Z:1.0", [⟨"A", 0, "ACGT", "", 4⟩],
        [⟨"A", 0, true, "B", 1, false, "4M", ""⟩]⟩ =
      ("H" ++ (if ("VN:Z:1.0" : String) = "" then "" else "\t" ++ "VN:Z:1.0")) ::
        (([⟨"A", 0, "ACGT", "", 4⟩] : List gfaSequence).map gfaSequence.save ++
         ([⟨"A", 0, true, "B", 1, false, "4M", ""⟩] : List gfaLink).map gfaLink.save) :=
  C8_save_grouped_order.2.2 "VN:Z:1.0" [⟨"A", 0, "ACGT", "", 4⟩]
    [⟨"A", 0, true, "B", 1, false, "4M", ""⟩]

/-! ## Round trip -/

/-- Field decomposition of a saved segment line: marker, name, sequence,
then the feature fields when features is nonempty. -/
theorem save_seg_fields (s : gfaSequence) (hv : validSeg s) :
    (s._features = "" ∧ splitTab s.save = ["S", s._name, s._sequence]) ∨
    (s._features ≠ "" ∧
      splitTab s.save = ["S", s._name, s._sequence] ++ splitTab s._features) := by
  obtain ⟨hname, hseq, tags, hfeat, htags⟩ := hv
  by_cases h0 : s._features = ""
  · left
    refine ⟨h0, ?_⟩
    have hsave : s.save = tabJoin ["S", s._name, s._sequence] := by
      simp [gfaSequence.save, h0]
    rw [hsave]
    refine splitTab_tabJoin _ ?_ (by simp)
    intro f hf
    rcases List.mem_cons.mp hf with h | hf
    · subst h; decide
    rcases List.mem_cons.mp hf with h | hf
    · subst h; exact hname
    rcases List.mem_cons.mp hf with h | hf
    · subst h; exact hseq
    · exact absurd hf (List.not_mem_nil f)
  · right
    refine ⟨h0, ?_⟩
    have htags0 : tags ≠ [] := by
      rintro rfl
      exact h0 (by rw [hfeat]; rfl)
    have hsave : s.save = tabJoin (["S", s._name, s._sequence] ++ tags) := by
      rw [tabJoin_append ["S", s._name, s._sequence] tags (by simp) htags0]
      simp only [gfaSequence.save, if_neg h0]
      rw [hfeat]
      rw [String.append_assoc]
    rw [hsave]
    have hsplit : splitTab (tabJoin (["S", s._name, s._sequence] ++ tags)) =
        ["S", s._name, s._sequence] ++ tags := by
      refine splitTab_tabJoin _ ?_ (by simp)
      intro f hf
      rcases List.mem_append.mp hf with h | h
      · rcases List.mem_cons.mp h with h | h
        · subst h; decide
        rcases List.mem_cons.mp h with h2 | h2
        · subst h2; exact hname
        rcases List.mem_cons.mp h2 with h3 | h3
        · subst h3; exact hseq
        · exact absurd h3 (List.not_mem_nil f)
      · exact (htags f h).1
    rw [hsplit]
    congr 1
    rw [hfeat]
    exact (splitTab_tabJoin tags (fun t ht => (htags t ht).1) htags0).symm

/-- Reloading a saved valid segment recovers name, sequence and features
verbatim (the id is reassigned, the length rederived). -/
theorem load_save_seg (s : gfaSequence) (hv : validSeg s) :
    gfaSequence.load s.save = .ok
      { _name := s._name, _id := 0, _sequence := s._sequence,
        _features := s._features,
        _length := if s._sequence = "*" then 0 else s._sequence.length } := by
  obtain ⟨hname, hseq, tags, hfeat, htags⟩ := hv
  rcases save_seg_fields s ⟨hname, hseq, tags, hfeat, htags⟩ with ⟨h0, hsplit⟩ | ⟨h0, hsplit⟩
  · rw [gfaSequence_load_fields s.save "S" s._name s._sequence [] hsplit]
    rw [h0]
    rfl
  · rw [gfaSequence_load_fields s.save "S" s._name s._sequence (splitTab s._features)
        (by rw [hsplit]; rfl)]
    have hfeat' : splitTab s._features = tags := by
      rw [hfeat]
      exact splitTab_tabJoin tags (fun t ht => (htags t ht).1)
        (by rintro rfl; exact h0 (by rw [hfeat]; rfl))
    rw [hfeat']
    have hfilter : tags.filter (fun t => (lengthTagValue t).isNone) = tags := by
      rw [List.filter_eq_self]
      intro t ht
      exact (htags t ht).2
    have hfind : tags.findSome? lengthTagValue = none :=
      findSome?_eq_none_of lengthTagValue tags
        (fun t ht => Option.isNone_iff_eq_none.mp (htags t ht).2)
    rw [hfilter, hfind, ← hfeat]

/-- One load step on a saved valid segment appends exactly one segment
with the same content and the resolver-assigned id. -/
theorem loadLine_save_seg (st : LoadState) (s : gfaSequence) (hv : validSeg s) :
    loadLine st s.save = .ok
      ⟨⟨st.file._header,
        st.file._sequences ++
          [{ _name := s._name, _id := (resolve st.names s._name).2,
             _sequence := s._sequence, _features := s._features,
             _length := if s._sequence = "*" then 0 else s._sequence.length }],
        st.file._links⟩,
      (resolve st.names s._name).1⟩ := by
  rcases save_seg_fields s hv with ⟨h0, hsplit⟩ | ⟨h0, hsplit⟩ <;>
    simp [loadLine, hsplit, load_save_seg s hv]

/-- Orientation renderings contain no separator. -/
theorem orientStr_tabFree (b : Bool) : '\t' ∉ (orientStr b).data := by
  cases b <;> decide

/-- Parsing inverts rendering of orientations. -/
theorem parseOrient_orientStr (b : Bool) : parseOrient (orientStr b) = .ok b := by
  cases b <;> rfl

/-- Field decomposition of a saved link line. -/
theorem save_link_fields (l : gfaLink) (hv : validLink l) :
    (l._features = "" ∧ splitTab l.save =
      ["L", l._Aname, orientStr l._Afwd, l._Bname, orientStr l._Bfwd, l._cigar]) ∨
    (l._features ≠ "" ∧ splitTab l.save =
      ["L", l._Aname, orientStr l._Afwd, l._Bname, orientStr l._Bfwd, l._cigar] ++
        splitTab l._features) := by
  obtain ⟨ha, hb, hc, tags, hfeat, htags⟩ := hv
  have hfields : ∀ f ∈ ["L", l._Aname, orientStr l._Afwd, l._Bname,
      orientStr l._Bfwd, l._cigar], '\t' ∉ f.data := by
    intro f hf
    rcases List.mem_cons.mp hf with h | hf
    · subst h; decide
    rcases List.mem_cons.mp hf with h | hf
    · subst h; exact ha
    rcases List.mem_cons.mp hf with h | hf
    · subst h; exact orientStr_tabFree _
    rcases List.mem_cons.mp hf with h | hf
    · subst h; exact hb
    rcases List.mem_cons.mp hf with h | hf
    · subst h; exact orientStr_tabFree _
    rcases List.mem_cons.mp hf with h | hf
    · subst h; exact hc
    · exact absurd hf (List.not_mem_nil f)
  by_cases h0 : l._features = ""
  · left
    refine ⟨h0, ?_⟩
    have hsave : l.save = tabJoin
        ["L", l._Aname, orientStr l._Afwd, l._Bname, orientStr l._Bfwd, l._cigar] := by
      simp [gfaLink.save, h0]
    rw [hsave]
    exact splitTab_tabJoin _ hfields (by simp)
  · right
    refine ⟨h0, ?_⟩
    have htags0 : tags ≠ [] := by
      rintro rfl
      exact h0 (by rw [hfeat]; rfl)
    have hsave : l.save = tabJoin
        (["L", l._Aname, orientStr l._Afwd, l._Bname, orientStr l._Bfwd, l._cigar]
          ++ tags) := by
      rw [tabJoin_append _ tags (by simp) htags0]
      simp only [gfaLink.save, if_neg h0]
      rw [hfeat, String.append_assoc]
    rw [hsave]
    have hsplit : splitTab (tabJoin (["L", l._Aname, orientStr l._Afwd, l._Bname,
        orientStr l._Bfwd, l._cigar] ++ tags)) =
        ["L", l._Aname, orientStr l._Afwd, l._Bname, orientStr l._Bfwd, l._cigar]
          ++ tags := by
      refine splitTab_tabJoin _ ?_ (by simp)
      intro f hf
      rcases List.mem_append.mp hf with h | h
      · exact hfields f h
      · exact htags f h
    rw [hsplit]
    congr 1
    rw [hfeat]
    exact (splitTab_tabJoin tags htags htags0).symm

/-- Reloading a saved valid link recovers names, orientations, CIGAR and
features verbatim (the ids are reassigned). -/
theorem load_save_link (l : gfaLink) (hv : validLink l) :
    gfaLink.load l.save = .ok
      { _Aname := l._Aname, _Aid := 0, _Afwd := l._Afwd,
        _Bname := l._Bname, _Bid := 0, _Bfwd := l._Bfwd,
        _cigar := l._cigar, _features := l._features } := by
  obtain ⟨ha, hb, hc, tags, hfeat, htags⟩ := hv
  rcases save_link_fields l ⟨ha, hb, hc, tags, hfeat, htags⟩ with ⟨h0, hsplit⟩ | ⟨h0, hsplit⟩
  · rw [gfaLink_load_fields l.save "L" l._Aname (orientStr l._Afwd) l._Bname
        (orientStr l._Bfwd) l._cigar [] hsplit]
    rw [parseOrient_orientStr, parseOrient_orientStr]
    rw [h0]
    rfl
  · rw [gfaLink_load_fields l.save "L" l._Aname (orientStr l._Afwd) l._Bname
        (orientStr l._Bfwd) l._cigar (splitTab l._features) (by rw [hsplit]; rfl)]
    rw [parseOrient_orientStr, parseOrient_orientStr]
    have hfeat' : splitTab l._features = tags := by
      rw [hfeat]
      exact splitTab_tabJoin tags htags
        (by rintro rfl; exact h0 (by rw [hfeat]; rfl))
    rw [hfeat', ← hfeat]

/-- One load step on a saved valid link appends exactly one link with the
same content and resolver-assigned endpoint ids. -/
theorem loadLine_save_link (st : LoadState) (l : gfaLink) (hv : validLink l) :
    loadLine st l.save = .ok
      ⟨⟨st.file._header, st.file._sequences,
        st.file._links ++
          [{ _Aname := l._Aname, _Aid := (resolve st.names l._Aname).2,
             _Afwd := l._Afwd,
             _Bname := l._Bname,
             _Bid := (resolve (resolve st.names l._Aname).1 l._Bname).2,
             _Bfwd := l._Bfwd,
             _cigar := l._cigar, _features := l._features }]⟩,
      (resolve (resolve st.names l._Aname).1 l._Bname).1⟩ := by
  rcases save_link_fields l hv with ⟨h0, hsplit⟩ | ⟨h0, hsplit⟩ <;>
    simp [loadLine, hsplit, load_save_link l hv]

/-- A load run over a concatenation continues from the state and line
number reached by the first part, when that part succeeds. -/
theorem loadAux_append_ok : ∀ (ls1 : List String) (ls2 : List String)
    (st st1 : LoadState) (k : Nat),
    loadAux st k ls1 = .ok st1 →
    loadAux st k (ls1 ++ ls2) = loadAux st1 (k + ls1.length) ls2 := by
  intro ls1
  induction ls1 with
  | nil =>
      intro ls2 st st1 k h
      injection h with h2
      subst h2
      simp [loadAux]
  | cons l ls1 ih =>
      intro ls2 st st1 k h
      simp only [loadAux, List.cons_append] at h ⊢
      cases hstep : loadLine st l with
      | error e => rw [hstep] at h; cases h
      | ok stx =>
          rw [hstep] at h
          show loadAux stx (k + 1) (ls1 ++ ls2) = loadAux st1 (k + (l :: ls1).length) ls2
          rw [ih ls2 stx st1 (k + 1) h]
          congr 1
          simp only [List.length_cons]
          omega

/-- Loading the saved lines of valid segments succeeds and appends exactly
those segments, content preserved in order. -/
theorem loadAux_saved_segs : ∀ (segs : List gfaSequence) (st : LoadState) (k : Nat),
    (∀ s ∈ segs, validSeg s) →
    ∃ st', loadAux st k (segs.map gfaSequence.save) = .ok st' ∧
      st'.file._header = st.file._header ∧
      st'.file._links = st.file._links ∧
      st'.file._sequences.map segContent =
        st.file._sequences.map segContent ++ segs.map segContent := by
  intro segs
  induction segs with
  | nil =>
      intro st k _
      exact ⟨st, rfl, rfl, rfl, by simp⟩
  | cons s segs ih =>
      intro st k hv
      have hs := hv s (List.mem_cons_self s segs)
      have hstep := loadLine_save_seg st s hs
      obtain ⟨st', hrun, hh, hl, hc⟩ := ih
        ⟨⟨st.file._header,
          st.file._sequences ++
            [{ _name := s._name, _id := (resolve st.names s._name).2,
               _sequence := s._sequence, _features := s._features,
               _length := if s._sequence = "*" then 0 else s._sequence.length }],
          st.file._links⟩,
        (resolve st.names s._name).1⟩ (k + 1)
        (fun t ht => hv t (List.mem_cons_of_mem s ht))
      refine ⟨st', ?_, hh, hl, ?_⟩
      · simp only [List.map_cons, loadAux, hstep]
        exact hrun
      · rw [hc]
        simp [segContent]
  
/-- Loading the saved lines of valid links succeeds and appends exactly
those links, content preserved in order. -/
theorem loadAux_saved_links : ∀ (links : List gfaLink) (st : LoadState) (k : Nat),
    (∀ l ∈ links, validLink l) →
    ∃ st', loadAux st k (links.map gfaLink.save) = .ok st' ∧
      st'.file._header = st.file._header ∧
      st'.file._sequences = st.file._sequences ∧
      st'.file._links.map linkContent =
        st.file._links.map linkContent ++ links.map linkContent := by
  intro links
  induction links with
  | nil =>
      intro st k _
      exact ⟨st, rfl, rfl, rfl, by simp⟩
  | cons l links ih =>
      intro st k hv
      have hl0 := hv l (List.mem_cons_self l links)
      have hstep := loadLine_save_link st l hl0
      obtain ⟨st', hrun, hh, hs, hc⟩ := ih
        ⟨⟨st.file._header, st.file._sequences,
          st.file._links ++
            [{ _Aname := l._Aname, _Aid := (resolve st.names l._Aname).2,
               _Afwd := l._Afwd,
               _Bname := l._Bname,
               _Bid := (resolve (resolve st.names l._Aname).1 l._Bname).2,
               _Bfwd := l._Bfwd,
               _cigar := l._cigar, _features := l._features }]⟩,
        (resolve (resolve st.names l._Aname).1 l._Bname).1⟩ (k + 1)
        (fun t ht => hv t (List.mem_cons_of_mem l ht))
      refine ⟨st', ?_, hh, hs, ?_⟩
      · simp only [List.map_cons, loadAux, hstep]
        exact hrun
      · rw [hc]
        simp [linkContent]

/-- One load step on the emitted header line stores the header text
verbatim. -/
theorem loadLine_header (st : LoadState) (h : String) :
    loadLine st ("H" ++ (if h = "" then "" else "\t" ++ h)) =
      .ok { st with file := { st.file with _header := some h } } := by
  by_cases h0 : h = ""
  · subst h0
    rfl
  · rw [if_neg h0]
    have hdata : ("H" ++ ("\t" ++ h)).data = ['H'] ++ '\t' :: h.data := by
      simp [String.data_append]
    have hsplit : splitTab ("H" ++ ("\t" ++ h)) = "H" :: splitTab h := by
      simp only [splitTab, hdata, List.splitOn]
      rw [List.splitOnP_first (fun x => x == '\t') ['H'] (by decide) '\t' (by decide)]
      rfl
    simp only [loadLine, hsplit, reduceIte]
    rw [show tabJoin (splitTab h) = h from tabJoin_splitTab h]

/-- C5: round-trip — for every File of Segments and Links with
syntactically valid fields, Save then Load succeeds and yields Segments
and Links with identical name, sequence, orientation, cigar and features
content, in the same order (ids are reassigned by the resolver). -/
theorem C5_round_trip :
    ∀ F : gfaFile,
      (∀ s ∈ F._sequences, validSeg s) →
      (∀ l ∈ F._links, validLink l) →
      ∃ F', gfaFile.loadFile (gfaFile.saveFile F) = .ok F' ∧
        F'._header = F._header ∧
        F'._sequences.map segContent = F._sequences.map segContent ∧
        F'._links.map linkContent = F._links.map linkContent := by
  intro F hs hl
  rw [saveFile_eq]
  cases hh : F._header with
  | none =>
      have hhl : headerLines F = [] := by simp [headerLines, hh]
      rw [hhl, List.nil_append]
      obtain ⟨st1, hrun1, hh1, hl1, hc1⟩ := loadAux_saved_segs F._sequences initState 1 hs
      have happ := loadAux_append_ok (F._sequences.map gfaSequence.save)
        (F._links.map gfaLink.save) initState st1 1 hrun1
      obtain ⟨st2, hrun2, hh2, hs2, hc2⟩ := loadAux_saved_links F._links st1
        (1 + (F._sequences.map gfaSequence.save).length) hl
      refine ⟨st2.file, ?_, ?_, ?_, ?_⟩
      · simp only [gfaFile.loadFile]
        rw [happ, hrun2]
        rfl
      · rw [hh2, hh1]
        rfl
      · rw [hs2, hc1]
        simp [initState]
      · rw [hc2, hl1]
        simp [initState]
  | some hdr =>
      obtain ⟨st1, hrun1, hh1, hl1, hc1⟩ := loadAux_saved_segs F._sequences
        ⟨⟨some hdr, [], []⟩, []⟩ 2 hs
      have happ := loadAux_append_ok (F._sequences.map gfaSequence.save)
        (F._links.map gfaLink.save) ⟨⟨some hdr, [], []⟩, []⟩ st1 2 hrun1
      obtain ⟨st2, hrun2, hh2, hs2, hc2⟩ := loadAux_saved_links F._links st1
        (2 + (F._sequences.map gfaSequence.save).length) hl
      have hhl : headerLines F = ["H" ++ (if hdr = "" then "" else "\t" ++ hdr)] := by
        simp [headerLines, hh]
      have hfull : loadAux initState 1
          (("H" ++ (if hdr = "" then "" else "\t" ++ hdr)) ::
            (F._sequences.map gfaSequence.save ++ F._links.map gfaLink.save)) =
          .ok st2 := by
        simp only [loadAux]
        rw [loadLine_header initState hdr]
        show loadAux ⟨⟨some hdr, [], []⟩, []⟩ 2
          (F._sequences.map gfaSequence.save ++ F._links.map gfaLink.save) = .ok st2
        rw [happ]
        exact hrun2
      have hlist : (headerLines F ++ F._sequences.map gfaSequence.save ++
          F._links.map gfaLink.save) =
          ("H" ++ (if hdr = "" then "" else "\t" ++ hdr)) ::
            (F._sequences.map gfaSequence.save ++ F._links.map gfaLink.save) := by
        rw [hhl]
        simp
      refine ⟨st2.file, ?_, ?_, ?_, ?_⟩
      · rw [hlist]
        simp only [gfaFile.loadFile]
        rw [hfull]
        rfl
      · rw [hh2, hh1]
      · rw [hs2, hc1]
        simp
      · rw [hc2, hl1]
        simp


/-- Witness for C5 at a one-segment, one-link file with arbitrary stored
ids and length. -/
theorem C5_round_trip_w :
    ∃ F', gfaFile.loadFile (gfaFile.saveFile
        ⟨some "VN:Z:1.0", [⟨"A", 7, "ACGT", "XX:i:7", 99⟩],
         [⟨"A", 3, true, "B", 9, false, "4M", ""⟩]⟩) = .ok F' ∧
      F'._header = (⟨some "VN:Z:1.0", [⟨"A", 7, "ACGT", "XX:i:7", 99⟩],
         [⟨"A", 3, true, "B", 9, false, "4M", ""⟩]⟩ : gfaFile)._header ∧
      F'._sequences.map segContent =
        ([⟨"A", 7, "ACGT", "XX:i:7", 99⟩] : List gfaSequence).map segContent ∧
      F'._links.map linkContent =
        ([⟨"A", 3, true, "B", 9, false, "4M", ""⟩] : List gfaLink).map linkContent :=
  C5_round_trip
    ⟨some "VN:Z:1.0", [⟨"A", 7, "ACGT", "XX:i:7", 99⟩],
     [⟨"A", 3, true, "B", 9, false, "4M", ""⟩]⟩
    (by
      intro s hs
      rw [List.mem_singleton] at hs
      subst hs
      exact ⟨by decide, by decide, ["XX:i:7"], rfl, by decide⟩)
    (by
      intro l hl
      rw [List.mem_singleton] at hl
      subst hl
      exact ⟨by decide, by decide, by decide, [], rfl, by decide⟩)
